import Mathlib

/-
Verification of the disk-usage triage script scripts/cleanup.py.

Shallow embedding conventions:
- Timestamps (time.time(), st_mtime) are modelled as Int seconds; Python floats
  carry exact values here, so `int(x)` for nonnegative x is `Int.toNat`.
- Filesystem traversal: `os.walk(root, topdown=True, followlinks=False)` yields a
  sequence of (dirpath, dirnames, filenames) triples; the script reads only
  dirpath and filenames, so a walk is modelled as a `List WalkEntry` given as
  input data, in traversal order.  A root that does not exist is `none`.
- `os.stat` may fail with OSError; `safe_stat` returns `none` in that case, so a
  directory entry carries an `Option Stat`.
- Paths are `List Char`; `os.path.join a b` is `a ++ '/' :: b`.
- Python's `list.sort(key=..., reverse=True)` is a stable descending sort; it is
  modelled by stable descending insertion sort.
- `float` decimal parsing in parse_size is modelled exactly (no IEEE rounding):
  the multiplier is a power of two, so `int(float(value) * mult)` equals the
  exact mantissa-and-scale computation used below.
-/

/-- Result of a successful os.stat call: the two fields the script reads. -/
structure Stat where
  st_size : Nat
  st_mtime : Int
deriving DecidableEq

/-- A filename from a walk entry together with the outcome of `safe_stat` on its
full path; `none` models an OSError. -/
structure FileEntry where
  name : List Char
  stat : Option Stat
deriving DecidableEq

/-- One (dirpath, filenames) item yielded by os.walk, with stat outcomes. -/
structure WalkEntry where
  dirpath : List Char
  files : List FileEntry
deriving DecidableEq

/-- A move candidate: the dict {"path": full, "size": st.st_size, "mtime": st.st_mtime}
built in scan_move_candidates. -/
structure Candidate where
  path : List Char
  size : Nat
  mtime : Int
deriving DecidableEq

/-- The dict returned by report_path. -/
structure DirectoryReport where
  path : List Char
  size : Nat
  latest : Option Int
  scanned : Nat
  errors : Nat
deriving DecidableEq

/-- Binary size constants of cleanup.py lines 8-11. -/
def KB : Nat := 1024

def MB : Nat := 1024 * KB

def GB : Nat := 1024 * MB

def TB : Nat := 1024 * GB

/-- Half-even rounding of q to tenths, as an integer count of tenths.  This is
what Python's format spec ".1f" applies to the exact value being formatted. -/
def roundTenths (q : ℚ) : ℤ :=
  if q * 10 - ⌊q * 10⌋ = 1 / 2 then
    (if ⌊q * 10⌋ % 2 = 0 then ⌊q * 10⌋ else ⌊q * 10⌋ + 1)
  else ⌊q * 10 + 1 / 2⌋

/-- Rendering of a nonnegative quantity with exactly one decimal digit,
modelling the f-string piece formatted with ".1f" in format_size. -/
def fmt1 (q : ℚ) : String :=
  toString (roundTenths q / 10) ++ "." ++ toString ((roundTenths q).natAbs % 10)

/-- The unit ladder iterated by format_size (line 16). -/
def sizeUnits : List String := ["B", "KB", "MB", "GB", "TB", "PB"]

/-- The loop of format_size (lines 16-22): divide by 1024 until the value drops
below 1024, then format; falls through to EB after the ladder is exhausted. -/
def format_size_go : List String → ℚ → String
  | [], size => fmt1 size ++ " EB"
  | unit :: rest, size =>
    if size < 1024 then
      (if unit = "B" then toString ⌊size⌋ ++ " " ++ unit else fmt1 size ++ " " ++ unit)
    else format_size_go rest (size / 1024)

/-- format_size (lines 14-22). -/
def format_size (num : Nat) : String :=
  format_size_go sizeUnits (num : ℚ)

/-- format_age (lines 25-39); the Python function reads the clock itself, so the
current time is an explicit second argument here. -/
def format_age : Option Int → Int → String
  | none, _ => "unknown"
  | some ts, now =>
    if ts > now then "0d"
    else
      let age := (now - ts).toNat
      let days := age / 86400
      if days > 0 then toString days ++ "d"
      else
        let hours := age / 3600
        if hours > 0 then toString hours ++ "h"
        else toString (age / 60) ++ "m"

/-- Python truthiness of the max_entries argument in `if max_entries and ...`
(line 66): None and 0 are both falsy. -/
def truthy : Option Nat → Bool
  | none => false
  | some n => n != 0

/-- The stat outcomes of all files under a walk, in traversal order: dir_size
visits each walk entry's files in sequence. -/
def walkStats (entries : List WalkEntry) : List (Option Stat) :=
  entries.flatMap (fun e => e.files.map (fun f => f.stat))

/-- The accumulation loop of dir_size (lines 55-67), with the early return of
line 67 when the cap is truthy and the scanned count reaches it. -/
def dir_size_loop (max_entries : Option Nat) :
    List (Option Stat) → Nat → Option Int → Nat → Nat → Nat × Option Int × Nat × Nat
  | [], total, latest, scanned, errors => (total, latest, scanned, errors)
  | none :: rest, total, latest, scanned, errors =>
    dir_size_loop max_entries rest total latest scanned (errors + 1)
  | some st :: rest, total, latest, scanned, errors =>
    let total1 := total + st.st_size
    let latest1 :=
      match latest with
      | none => some st.st_mtime
      | some l => if st.st_mtime > l then some st.st_mtime else some l
    if truthy max_entries && decide (scanned + 1 ≥ max_entries.getD 0) then
      (total1, latest1, scanned + 1, errors)
    else dir_size_loop max_entries rest total1 latest1 (scanned + 1) errors

/-- dir_size (lines 50-68): returns (total, latest_mtime, scanned, errors). -/
def dir_size (entries : List WalkEntry) (max_entries : Option Nat) :
    Nat × Option Int × Nat × Nat :=
  dir_size_loop max_entries (walkStats entries) 0 none 0 0

/-- report_path (lines 71-81): None when the path does not exist (modelled by a
`none` filesystem), otherwise the report dict built from dir_size. -/
def report_path (path : List Char) (fs : Option (List WalkEntry)) (max_entries : Option Nat) :
    Option DirectoryReport :=
  match fs with
  | none => none
  | some entries =>
    let r := dir_size entries max_entries
    some ⟨path, r.1, r.2.1, r.2.2.1, r.2.2.2⟩

/-- Character class kept for the numeric portion in parse_size line 94. -/
def numericChar (c : Char) : Bool := c.isDigit || c == '.'

/-- Value of a digit string read left to right, as float/int conversion does. -/
def digitsToNat (ds : List Char) : Nat :=
  ds.foldl (fun a c => 10 * a + (c.toNat - 48)) 0

/-- Given a string of digits and dots, `float` accepts it iff it has at least
one digit and at most one dot (line 98 raises ValueError otherwise). -/
def validDecimal (cs : List Char) : Bool :=
  cs.any Char.isDigit && decide (List.count '.' cs ≤ 1)

/-- Number of digits after the dot in a digits-and-dots string. -/
def fracLen (cs : List Char) : Nat :=
  ((cs.dropWhile (fun c => c != '.')).tail).length

/-- All digits of a digits-and-dots string, dot removed: the decimal value is
mantissa / 10 ^ fracLen. -/
def mantissa (cs : List Char) : Nat :=
  digitsToNat (cs.filter (fun c => c != '.'))

/-- The unit dispatch of parse_size lines 99-110, on the lowercased alphabetic
subsequence of the input. -/
def unitMult : List Char → Option Nat := fun u =>
  if u = [] ∨ u = "b".toList then some 1
  else if u = "k".toList ∨ u = "kb".toList ∨ u = "kib".toList then some KB
  else if u = "m".toList ∨ u = "mb".toList ∨ u = "mib".toList then some MB
  else if u = "g".toList ∨ u = "gb".toList ∨ u = "gib".toList then some GB
  else if u = "t".toList ∨ u = "tb".toList ∨ u = "tib".toList then some TB
  else none

/-- parse_size (lines 93-111).  `int(float(value) * mult)` with `mult` a power
of two equals the exact truncation `mantissa * mult / 10 ^ fracLen` (Nat
division), which is how the returned value is written here. -/
def parse_size (text : List Char) : Except String Nat :=
  let value := text.filter numericChar
  let unit := (text.filter Char.isAlpha).map Char.toLower
  if value.isEmpty then Except.error "Invalid size"
  else if !validDecimal value then Except.error "Invalid size"
  else
    match unitMult unit with
    | none => Except.error "Unknown size unit"
    | some mult => Except.ok (mantissa value * mult / 10 ^ fracLen value)

/-- Whether an Except result is a success. -/
def exceptOk : Except String Nat → Bool
  | Except.ok _ => true
  | Except.error _ => false

/-- Python's substring test `needle in hay` on strings-as-char-lists. -/
def containsSub (needle : List Char) : List Char → Bool
  | [] => needle.isEmpty
  | c :: rest => needle.isPrefixOf (c :: rest) || containsSub needle rest

/-- The pattern "/.Trash" of line 130. -/
def trashPat : List Char := "/.Trash".toList

/-- The pattern "/.git" of line 130. -/
def gitPat : List Char := "/.git".toList

/-- The skip test of line 130: `"/.Trash" in dirpath or "/.git" in dirpath`. -/
def excludedDir (dirpath : List Char) : Bool :=
  containsSub trashPat dirpath || containsSub gitPat dirpath

/-- Per-file body of the scan loop (lines 133-147): stat, size threshold, age
threshold, then the candidate record. -/
def processFile (min_size : Nat) (cutoff : Int) (dirpath : List Char) (f : FileEntry) :
    Option Candidate :=
  match f.stat with
  | none => none
  | some st =>
    if st.st_size < min_size then none
    else if st.st_mtime > cutoff then none
    else some ⟨dirpath ++ '/' :: f.name, st.st_size, st.st_mtime⟩

/-- The walk loop of lines 129-147 over one root: an excluded dirpath
contributes nothing (the `continue` skips its filenames). -/
def scanWalk (min_size : Nat) (cutoff : Int) (entries : List WalkEntry) : List Candidate :=
  entries.flatMap (fun e =>
    if excludedDir e.dirpath then []
    else e.files.filterMap (processFile min_size cutoff e.dirpath))

/-- Lines 126-147: roots in order, a missing root (none) silently skipped. -/
def scan_collect (roots : List (Option (List WalkEntry))) (min_size : Nat) (cutoff : Int) :
    List Candidate :=
  roots.flatMap (fun r =>
    match r with
    | none => []
    | some entries => scanWalk min_size cutoff entries)

/-- Stable descending insertion: a new element goes after every element of size
at least its own, so earlier-discovered equal-size elements stay in front. -/
def insertDesc (c : Candidate) : List Candidate → List Candidate
  | [] => [c]
  | d :: ds => if c.size ≤ d.size then d :: insertDesc c ds else c :: d :: ds

/-- `candidates.sort(key=lambda x: x["size"], reverse=True)` (line 148):
Python's sort is stable and reverse=True keeps equal elements in list order,
which is exactly stable descending insertion sort. -/
def sortDesc (l : List Candidate) : List Candidate :=
  l.foldl (fun acc c => insertDesc c acc) []

/-- scan_move_candidates (lines 114-149); the cutoff of line 124 is computed
once from the scan clock.  The walks of the fixed root list are input data. -/
def scan_move_candidates (roots : List (Option (List WalkEntry))) (min_size : Nat)
    (now : Int) (min_age_days : Int) : List Candidate :=
  sortDesc (scan_collect roots min_size (now - min_age_days * 86400))

/-- One CSV row of write_move_candidates line 157: raw path, size, age joined
by commas, newline-terminated, nothing quoted or escaped. -/
def candidateRow (now : Int) (c : Candidate) : List Char :=
  c.path ++ ',' :: (toString c.size).toList
    ++ ',' :: (format_age (some c.mtime) now).toList ++ ['\n']

/-- write_move_candidates (lines 152-157) as the byte content it produces: the
header is written first, then one row per candidate in list order. -/
def write_move_candidates (candidates : List Candidate) (now : Int) : List Char :=
  candidates.foldl (fun acc c => acc ++ candidateRow now c) ("path,size_bytes,age\n".toList)

/-- `open(output_path, "w")` truncates: the file content after the write does
not depend on what the file held before. -/
def fileAfterWrite (_old : Option (List Char)) (candidates : List Candidate) (now : Int) :
    List Char :=
  write_move_candidates candidates now

/-- Modelled from the spec: C3's exclusion rule as written there, an exact
directory-name segment match against the reserved names ".Trash" and ".git"
(used only to compare the spec's rule with the code's `excludedDir`). -/
def specSegExcluded (segments : List (List Char)) : Bool :=
  segments.any (fun s => s == ".Trash".toList || s == ".git".toList)

/-- Join path segments onto a root, the way os.walk extends dirpaths. -/
def joinSegs (root : List Char) (segs : List (List Char)) : List Char :=
  segs.foldl (fun p n => p ++ '/' :: n) root

/-- A directory name that starts with ".Trash" or ".git": the class of names
the code's substring test actually reacts to. -/
def namePrefixHit (s : List Char) : Bool :=
  (".Trash".toList).isPrefixOf s || (".git".toList).isPrefixOf s

/-- The full unit table of parse_size, spec section 6. -/
def allUnits : List (List Char) :=
  [[], "b".toList, "k".toList, "kb".toList, "kib".toList,
   "m".toList, "mb".toList, "mib".toList, "g".toList, "gb".toList, "gib".toList,
   "t".toList, "tb".toList, "tib".toList]

/-- The unit spellings the spec assigns to multiplier 1024 ^ k. -/
def unitsForPower : Nat → List (List Char)
  | 0 => [[], "b".toList]
  | 1 => ["k".toList, "kb".toList, "kib".toList]
  | 2 => ["m".toList, "mb".toList, "mib".toList]
  | 3 => ["g".toList, "gb".toList, "gib".toList]
  | 4 => ["t".toList, "tb".toList, "tib".toList]
  | _ => []

/-- A rendered size of the shape integer-part, dot, one decimal digit, blank,
unit: what "exactly one decimal place" means for format_size output. -/
def oneDecimalWith (s : String) (u : String) : Prop :=
  ∃ a : ℤ, ∃ d : Nat, d < 10 ∧ s = toString a ++ "." ++ toString d ++ " " ++ u

/-! Helper lemmas. -/

lemma foldl_append_rows (cs : List Candidate) (now : Int) :
    ∀ acc : List Char,
      cs.foldl (fun a c => a ++ candidateRow now c) acc
        = acc ++ (cs.map (candidateRow now)).flatten := by
  induction cs with
  | nil => intro acc; simp
  | cons c cs ih => intro acc; simp [ih, List.append_assoc]

/-- Claim C4 counterexample: the claim extends "0d" to every timestamp at or after the
current time, but format_age classifies a timestamp equal to the clock through
the age computation, giving zero minutes, not "0d". -/
theorem format_age_eq_now_cex :
    format_age (some 0) 0 = "0m" ∧ (format_age (some 0) 0 == "0d") = false :=
  ⟨rfl, by decide⟩

/-- Claim C4 (amended): a timestamp strictly in the future renders as "0d"; a
timestamp exactly equal to the current time renders as "0m" (age zero falls to
the minutes bucket); an absent timestamp renders as "unknown". -/
theorem format_age_amended :
    (∀ ts now : Int, now < ts → format_age (some ts) now = "0d") ∧
    (∀ now : Int, format_age (some now) now = "0m") ∧
    (∀ now : Int, format_age none now = "unknown") := by
  refine ⟨fun ts now h => ?_, fun now => ?_, fun _ => rfl⟩
  · simp [format_age, h]
  · simp [format_age]
    decide

/-- Claim C4 witness: a concrete strictly-future timestamp renders as "0d". -/
theorem format_age_amended_witness : format_age (some 5) 3 = "0d" :=
  format_age_amended.1 5 3 (by decide)

/-- Claim C5: probing a missing path yields the distinguished `none`, never a report;
probing an existing path always yields a report carrying the path and the four
dir_size aggregates; even an empty existing directory yields a (zero) report,
`some`, so the missing-path result is distinguishable from every report. -/
theorem report_path_missing_vs_report :
    (∀ (p : List Char) (m : Option Nat), report_path p none m = none) ∧
    (∀ (p : List Char) (entries : List WalkEntry) (m : Option Nat),
      report_path p (some entries) m =
        some ⟨p, (dir_size entries m).1, (dir_size entries m).2.1,
          (dir_size entries m).2.2.1, (dir_size entries m).2.2.2⟩) ∧
    (∀ (p : List Char) (m : Option Nat), report_path p (some []) m = some ⟨p, 0, none, 0, 0⟩) :=
  ⟨fun _ _ => rfl, fun _ _ _ => rfl, fun _ _ => rfl⟩

/-- Claim C9: the manifest content is exactly the header row followed by one
comma-joined row per candidate in list order (raw fields, nothing escaped), and
the resulting file content is independent of what the file held before. -/
theorem write_manifest_layout :
    ∀ (cs : List Candidate) (now : Int),
      write_move_candidates cs now
          = "path,size_bytes,age\n".toList ++ (cs.map (candidateRow now)).flatten ∧
      (∀ old1 old2 : Option (List Char),
        fileAfterWrite old1 cs now = fileAfterWrite old2 cs now) :=
  fun cs now => ⟨foldl_append_rows cs now _, fun _ _ => rfl⟩

/-- Claim C10: parse_size looks only at the digits-and-dots subsequence and the
alphabetic subsequence of its input, wherever those characters sit; stray
letters are folded into the unit suffix, as the "1x5" conjuncts show. -/
theorem parse_size_char_classes :
    (∀ t1 t2 : List Char,
        t1.filter numericChar = t2.filter numericChar →
        t1.filter Char.isAlpha = t2.filter Char.isAlpha →
        parse_size t1 = parse_size t2) ∧
    parse_size ("MB200".toList) = parse_size ("200MB".toList) ∧
    parse_size ("200 MB".toList) = parse_size ("200MB".toList) ∧
    parse_size ("2,0 0MB".toList) = parse_size ("200MB".toList) ∧
    ("1x5".toList.filter Char.isAlpha).map Char.toLower = "x".toList ∧
    exceptOk (parse_size ("1x5".toList)) = false := by
  refine ⟨fun t1 t2 h1 h2 => ?_, rfl, rfl, rfl, by decide, by decide⟩
  simp only [parse_size, h1, h2]

/-- Claim C10 witness: two concrete inputs with the same character-class
subsequences parse identically. -/
theorem parse_size_char_classes_witness :
    parse_size ("A1".toList) = parse_size ("1A".toList) :=
  parse_size_char_classes.1 ("A1".toList) ("1A".toList) (by decide) (by decide)

/-- Claim C7 counterexample: "1.2.3" has a present (nonempty) numeric portion and its
unit suffix is the empty string, which is recognized, yet parse_size fails,
because float("1.2.3") raises: the claim's "if and only if" is too narrow. -/
theorem parse_size_iff_cex :
    exceptOk (parse_size ("1.2.3".toList)) = false ∧
    ("1.2.3".toList.filter numericChar).isEmpty = false ∧
    unitMult (("1.2.3".toList.filter Char.isAlpha).map Char.toLower) = some 1 := by
  refine ⟨by decide, by decide, by decide⟩

/-- Claim C7 (amended): parse_size fails iff the numeric portion is not a valid
decimal numeral (missing, no digit, or more than one dot) or the unit suffix is
not in the recognized table; on success it returns the decimal value times the
unit's power of 1024, truncated to an integer.  The last conjunct states that
the Nat-division form used in the embedding is that exact truncated product. -/
theorem parse_size_amended :
    ∀ text : List Char,
      (exceptOk (parse_size text) = false ↔
          (validDecimal (text.filter numericChar) = false ∨
            unitMult ((text.filter Char.isAlpha).map Char.toLower) = none)) ∧
      (∀ mult : Nat,
          validDecimal (text.filter numericChar) = true →
          unitMult ((text.filter Char.isAlpha).map Char.toLower) = some mult →
          parse_size text = Except.ok
            (mantissa (text.filter numericChar) * mult / 10 ^ fracLen (text.filter numericChar))) ∧
      (∀ u : List Char, unitMult u = none ↔ u ∉ allUnits) ∧
      (∀ k : Nat, k ≤ 4 → ∀ u ∈ unitsForPower k, unitMult u = some (1024 ^ k)) ∧
      (∀ (v : List Char) (mult : Nat),
          ⌊((mantissa v * mult : Nat) : ℚ) / ((10 : ℚ) ^ fracLen v)⌋₊
            = mantissa v * mult / 10 ^ fracLen v) := by
  intro text
  refine ⟨?_, ?_, ?_, ?_, ?_⟩
  · by_cases he : text.filter numericChar = []
    · have he1 : (text.filter numericChar).isEmpty = true := by simp [he]
      have hv : validDecimal (text.filter numericChar) = false := by rw [he]; rfl
      simp [parse_size, he1, hv, exceptOk]
    · have he1 : (text.filter numericChar).isEmpty = false := by simp [he]
      cases hv : validDecimal (text.filter numericChar) with
      | false => simp [parse_size, he1, hv, exceptOk]
      | true =>
        cases hu : unitMult ((text.filter Char.isAlpha).map Char.toLower) with
        | none => simp [parse_size, he1, hv, hu, exceptOk]
        | some m => simp [parse_size, he1, hv, hu, exceptOk]
  · intro mult hv hu
    have he1 : (text.filter numericChar).isEmpty = false := by
      cases he : text.filter numericChar with
      | nil => rw [he] at hv; exact absurd hv (by decide)
      | cons c cs => simp [he]
    simp [parse_size, he1, hv, hu]
  · intro u
    constructor
    · intro h hmem
      simp only [allUnits, List.mem_cons, List.not_mem_nil, or_false] at hmem
      rcases hmem with rfl | rfl | rfl | rfl | rfl | rfl | rfl | rfl | rfl | rfl | rfl | rfl | rfl | rfl <;>
        exact absurd h (by decide)
    · intro h
      simp only [unitMult]
      repeat' split
      any_goals rfl
      all_goals
        rename_i hc
        exact absurd (by simp only [allUnits, List.mem_cons, List.not_mem_nil, or_false]; tauto) h
  · intro k hk u hu
    interval_cases k <;> simp only [unitsForPower] at hu <;> fin_cases hu <;> decide
  · intro v mult
    rw [show ((10 : ℚ) ^ fracLen v) = (((10 ^ fracLen v : Nat)) : ℚ) by push_cast; ring]
    exact Nat.floor_div_eq_div (α := ℚ) (mantissa v * mult) (10 ^ fracLen v)

/-- Claim C7 witness: "200MB" parses successfully to its truncated product. -/
theorem parse_size_amended_witness :
    parse_size ("200MB".toList) = Except.ok
      (mantissa ("200MB".toList.filter numericChar) * 1048576
        / 10 ^ fracLen ("200MB".toList.filter numericChar)) :=
  (parse_size_amended ("200MB".toList)).2.1 1048576 (by decide) (by decide)

lemma insertDesc_perm (c : Candidate) (l : List Candidate) :
    List.Perm (insertDesc c l) (c :: l) := by
  induction l with
  | nil => exact List.Perm.refl _
  | cons d ds ih =>
    simp only [insertDesc]
    split
    · exact (ih.cons d).trans (List.Perm.swap c d ds)
    · exact List.Perm.refl _

lemma sortDesc_go_perm (l : List Candidate) :
    ∀ acc : List Candidate,
      List.Perm (List.foldl (fun a c => insertDesc c a) acc l) (acc ++ l) := by
  induction l with
  | nil => intro acc; simp
  | cons c cs ih =>
    intro acc
    have h1 := ih (insertDesc c acc)
    have h2 : List.Perm (insertDesc c acc ++ cs) (acc ++ c :: cs) :=
      (((insertDesc_perm c acc).append_right cs)).trans (List.perm_middle.symm)
    exact h1.trans h2

lemma sortDesc_perm (l : List Candidate) : List.Perm (sortDesc l) l := by
  simpa using sortDesc_go_perm l []

lemma processFile_qual (m : Nat) (cut : Int) (dp : List Char) (f : FileEntry) (c : Candidate)
    (h : processFile m cut dp f = some c) : m ≤ c.size ∧ c.mtime ≤ cut := by
  cases hf : f.stat with
  | none => simp only [processFile, hf] at h; cases h
  | some st =>
    simp only [processFile, hf] at h
    by_cases h1 : st.st_size < m
    · rw [if_pos h1] at h; cases h
    · rw [if_neg h1] at h
      by_cases h2 : st.st_mtime > cut
      · rw [if_pos h2] at h; cases h
      · rw [if_neg h2] at h
        cases h
        exact ⟨Nat.le_of_not_lt h1, le_of_not_lt h2⟩

lemma scan_collect_qual (roots : List (Option (List WalkEntry))) (m : Nat) (cut : Int)
    (c : Candidate) (hc : c ∈ scan_collect roots m cut) : m ≤ c.size ∧ c.mtime ≤ cut := by
  unfold scan_collect at hc
  rw [List.mem_flatMap] at hc
  obtain ⟨r, _, hcr⟩ := hc
  cases r with
  | none => exact absurd hcr (List.not_mem_nil c)
  | some entries =>
    unfold scanWalk at hcr
    rw [List.mem_flatMap] at hcr
    obtain ⟨e, _, hce⟩ := hcr
    by_cases hex : excludedDir e.dirpath = true
    · rw [if_pos hex] at hce; exact absurd hce (List.not_mem_nil c)
    · rw [if_neg hex] at hce
      rw [List.mem_filterMap] at hce
      obtain ⟨f, _, hpf⟩ := hce
      exact processFile_qual m cut e.dirpath f c hpf

/-- Claim C2: the per-file inclusion decision of the scan accepts a statable file iff
its size is at least min_size (inclusive) and its modification time is at most
the cutoff now - min_age_days * 86400 (inclusive); consequently every candidate
the scan returns satisfies both bounds. -/
theorem candidate_threshold_iff :
    ∀ (min_size : Nat) (now min_age_days : Int) (dp : List Char) (f : FileEntry) (st : Stat),
      f.stat = some st →
      ((processFile min_size (now - min_age_days * 86400) dp f).isSome = true ↔
        (min_size ≤ st.st_size ∧ st.st_mtime ≤ now - min_age_days * 86400)) ∧
      (∀ (roots : List (Option (List WalkEntry))) (c : Candidate),
        c ∈ scan_move_candidates roots min_size now min_age_days →
        min_size ≤ c.size ∧ c.mtime ≤ now - min_age_days * 86400) := by
  intro min_size now mad dp f st hf
  constructor
  · unfold processFile
    rw [hf]
    by_cases h1 : st.st_size < min_size
    · have hna : ¬ min_size ≤ st.st_size := Nat.not_le.mpr h1
      simp [if_pos h1, hna]
    · by_cases h2 : st.st_mtime > now - mad * 86400
      · have hna : ¬ st.st_mtime ≤ now - mad * 86400 := not_le.mpr h2
        simp [if_neg h1, if_pos h2, hna]
      · have hle1 : min_size ≤ st.st_size := Nat.le_of_not_lt h1
        have hle2 : st.st_mtime ≤ now - mad * 86400 := le_of_not_lt h2
        simp [if_neg h1, if_neg h2, hle1, hle2]
  · intro roots c hc
    unfold scan_move_candidates at hc
    have hc1 : c ∈ scan_collect roots min_size (now - mad * 86400) :=
      ((sortDesc_perm _).mem_iff).mp hc
    exact scan_collect_qual roots min_size (now - mad * 86400) c hc1

/-- C2 witness: a file whose size equals min_size exactly and whose mtime
equals the cutoff exactly is accepted. -/
theorem candidate_threshold_iff_witness :
    (processFile 100 (172800 - 1 * 86400) [] ⟨[], some ⟨100, 86400⟩⟩).isSome = true ↔
      (100 ≤ 100 ∧ (86400 : Int) ≤ 172800 - 1 * 86400) :=
  (candidate_threshold_iff 100 172800 1 [] ⟨[], some ⟨100, 86400⟩⟩ ⟨100, 86400⟩ rfl).1

lemma dir_size_loop_zero (l : List (Option Stat)) :
    ∀ (t : Nat) (lat : Option Int) (s e : Nat),
      dir_size_loop (some 0) l t lat s e = dir_size_loop none l t lat s e := by
  induction l with
  | nil => intros; rfl
  | cons o rest ih =>
    intro t lat s e
    cases o with
    | none => simp only [dir_size_loop]; exact ih t lat s (e + 1)
    | some st =>
      simp only [dir_size_loop, truthy, Option.getD]
      simp only [bne_self_eq_false, Bool.false_and, Bool.if_false_left]
      exact ih (t + st.st_size) _ (s + 1) e

lemma dir_size_loop_none_mono (l : List (Option Stat)) :
    ∀ (t : Nat) (lat : Option Int) (s e : Nat),
      s ≤ (dir_size_loop none l t lat s e).2.2.1 ∧ t ≤ (dir_size_loop none l t lat s e).1 := by
  induction l with
  | nil => intros; exact ⟨le_refl _, le_refl _⟩
  | cons o rest ih =>
    intro t lat s e
    cases o with
    | none => simpa only [dir_size_loop] using ih t lat s (e + 1)
    | some st =>
      simp only [dir_size_loop, truthy, Bool.false_and, Bool.false_eq_true, if_false]
      have h := ih (t + st.st_size)
          (match lat with
            | none => some st.st_mtime
            | some l => if st.st_mtime > l then some st.st_mtime else some l) (s + 1) e
      exact ⟨le_trans (Nat.le_succ s) h.1, le_trans (Nat.le_add_right t _) h.2⟩

lemma dir_size_loop_cap (n : Nat) (hn : 0 < n) (l : List (Option Stat)) :
    ∀ (t : Nat) (lat : Option Int) (s e : Nat), s < n →
      (n ≤ (dir_size_loop none l t lat s e).2.2.1 →
          (dir_size_loop (some n) l t lat s e).2.2.1 = n ∧
          (dir_size_loop (some n) l t lat s e).1 ≤ (dir_size_loop none l t lat s e).1) ∧
      ((dir_size_loop none l t lat s e).2.2.1 < n →
          dir_size_loop (some n) l t lat s e = dir_size_loop none l t lat s e) := by
  induction l with
  | nil =>
    intro t lat s e hs
    exact ⟨fun h => absurd h (by simpa using Nat.not_le.mpr hs), fun _ => rfl⟩
  | cons o rest ih =>
    intro t lat s e hs
    cases o with
    | none =>
      simp only [dir_size_loop]
      exact ih t lat s (e + 1) hs
    | some st =>
      have hbne : (n != 0) = true := by simp [Nat.pos_iff_ne_zero.mp hn]
      by_cases hreach : n ≤ s + 1
      · have hcond : ((n != 0) && decide (s + 1 ≥ (some n).getD 0)) = true := by
          simp [hbne, hreach]
        have hsn : n = s + 1 := le_antisymm hreach (Nat.succ_le_of_lt hs)
        simp only [dir_size_loop, truthy, hcond, eq_self_iff_true, if_true, Bool.false_and,
          Bool.false_eq_true, if_false]
        set lat1 :=
          (match lat with
            | none => some st.st_mtime
            | some l => if st.st_mtime > l then some st.st_mtime else some l) with hlat1
        have hmono := dir_size_loop_none_mono rest (t + st.st_size) lat1 (s + 1) e
        constructor
        · intro _
          exact ⟨hsn.symm, hmono.2⟩
        · intro hlt
          exfalso
          have h1 := hmono.1
          omega
      · have hcond : ((n != 0) && decide (s + 1 ≥ (some n).getD 0)) = false := by
          simp [hbne, hreach]
        simp only [dir_size_loop, truthy, hcond, Bool.false_eq_true, if_false, Bool.false_and]
        exact ih (t + st.st_size) _ (s + 1) e (Nat.lt_of_not_le hreach)

/-- Claim C6 counterexample: maxEntries = 0 is supplied and the scanned count reaches
it trivially, yet dir_size does not stop (Python `if max_entries` treats 0 as
falsy): on a one-file directory the scanned count is 1, not the cap 0, and
the capped run equals the uncapped run. -/
theorem dir_size_cap_zero_cex :
    dir_size [⟨"/r".toList, [⟨"a".toList, some ⟨5, 0⟩⟩]⟩] (some 0)
        = dir_size [⟨"/r".toList, [⟨"a".toList, some ⟨5, 0⟩⟩]⟩] none ∧
    (dir_size [⟨"/r".toList, [⟨"a".toList, some ⟨5, 0⟩⟩]⟩] (some 0)).2.2.1 = 1 :=
  ⟨by decide, by decide⟩

/-- Claim C6 (amended): when a positive maxEntries is supplied and the uncapped scan
would reach it, the capped dir_size stops early with scanned count exactly
maxEntries and a total that is a lower bound on the uncapped total; a supplied
maxEntries of 0 is falsy in the loop guard and behaves as no cap at all. -/
theorem dir_size_cap_amended :
    (∀ (entries : List WalkEntry) (n : Nat), 0 < n →
        n ≤ (dir_size entries none).2.2.1 →
        (dir_size entries (some n)).2.2.1 = n ∧
        (dir_size entries (some n)).1 ≤ (dir_size entries none).1) ∧
    (∀ entries : List WalkEntry, dir_size entries (some 0) = dir_size entries none) := by
  constructor
  · intro entries n hn hreach
    exact (dir_size_loop_cap n hn (walkStats entries) 0 none 0 0 hn).1 hreach
  · intro entries
    exact dir_size_loop_zero (walkStats entries) 0 none 0 0

/-- Claim C6 witness: on a two-file directory with cap 1 the capped scan stops at
scanned count 1 and under-reports the total. -/
theorem dir_size_cap_amended_witness :
    (dir_size [⟨"/r".toList, [⟨"a".toList, some ⟨3, 0⟩⟩, ⟨"b".toList, some ⟨4, 0⟩⟩]⟩]
        (some 1)).2.2.1 = 1 ∧
    (dir_size [⟨"/r".toList, [⟨"a".toList, some ⟨3, 0⟩⟩, ⟨"b".toList, some ⟨4, 0⟩⟩]⟩]
        (some 1)).1 ≤
      (dir_size [⟨"/r".toList, [⟨"a".toList, some ⟨3, 0⟩⟩, ⟨"b".toList, some ⟨4, 0⟩⟩]⟩]
        none).1 :=
  dir_size_cap_amended.1 [⟨"/r".toList, [⟨"a".toList, some ⟨3, 0⟩⟩, ⟨"b".toList, some ⟨4, 0⟩⟩]⟩]
    1 (by decide) (by decide)

lemma pairwise_insertDesc (c : Candidate) (l : List Candidate)
    (h : List.Pairwise (fun a b => b.size ≤ a.size) l) :
    List.Pairwise (fun a b => b.size ≤ a.size) (insertDesc c l) := by
  induction l with
  | nil => simp [insertDesc]
  | cons d ds ih =>
    rw [List.pairwise_cons] at h
    simp only [insertDesc]
    split
    · rename_i hle
      rw [List.pairwise_cons]
      constructor
      · intro b hb
        have hb2 : b = c ∨ b ∈ ds := List.mem_cons.mp (((insertDesc_perm c ds).mem_iff).mp hb)
        rcases hb2 with rfl | hb2
        · exact hle
        · exact h.1 b hb2
      · exact ih h.2
    · rename_i hgt
      rw [List.pairwise_cons]
      constructor
      · intro b hb
        rcases List.mem_cons.mp hb with hb1 | hb1
        · rw [hb1]; exact le_of_not_le hgt
        · exact le_trans (h.1 b hb1) (le_of_not_le hgt)
      · exact List.pairwise_cons.mpr h

lemma filter_insertDesc (c : Candidate) (l : List Candidate) (s : Nat)
    (h : List.Pairwise (fun a b => b.size ≤ a.size) l) :
    (insertDesc c l).filter (fun x => x.size == s)
      = l.filter (fun x => x.size == s) ++ (if c.size == s then [c] else []) := by
  induction l with
  | nil =>
    by_cases hc : (c.size == s) = true
    · simp [insertDesc, List.filter_cons, hc]
    · rw [Bool.not_eq_true] at hc
      simp [insertDesc, List.filter_cons, hc]
  | cons d ds ih =>
    rw [List.pairwise_cons] at h
    simp only [insertDesc]
    split
    · rename_i hle
      simp only [List.filter_cons, ih h.2]
      split
      · simp
      · simp
    · rename_i hgt
      by_cases hcs : (c.size == s) = true
      · have hs : c.size = s := beq_iff_eq.mp hcs
        have hfil : (d :: ds).filter (fun x => x.size == s) = [] := by
          rw [List.filter_eq_nil_iff]
          intro b hb
          have hblt : b.size < c.size := by
            rcases List.mem_cons.mp hb with hb1 | hb1
            · rw [hb1]; exact Nat.lt_of_not_le hgt
            · exact lt_of_le_of_lt (h.1 b hb1) (Nat.lt_of_not_le hgt)
          simp only [beq_iff_eq]
          omega
        rw [List.filter_cons]
        simp only [hcs, if_true, hfil]
        simp [hs]
      · have hcs1 : (c.size == s) = false := by
          rw [Bool.not_eq_true] at hcs
          exact hcs
        rw [List.filter_cons]
        simp [hcs1]

lemma sortDesc_go_sorted_stable (l : List Candidate) :
    ∀ acc : List Candidate,
      List.Pairwise (fun a b => b.size ≤ a.size) acc →
      List.Pairwise (fun a b => b.size ≤ a.size)
          (List.foldl (fun a c => insertDesc c a) acc l) ∧
      ∀ s : Nat,
        (List.foldl (fun a c => insertDesc c a) acc l).filter (fun x => x.size == s)
          = acc.filter (fun x => x.size == s) ++ l.filter (fun x => x.size == s) := by
  induction l with
  | nil => intro acc h; exact ⟨h, fun s => by simp⟩
  | cons c cs ih =>
    intro acc h
    have h1 := pairwise_insertDesc c acc h
    obtain ⟨hs, hf⟩ := ih (insertDesc c acc) h1
    refine ⟨hs, fun s => ?_⟩
    simp only [List.foldl_cons] at *
    rw [hf s, filter_insertDesc c acc s h, List.filter_cons]
    by_cases hcs : (c.size == s) = true
    · simp [hcs, List.append_assoc]
    · rw [Bool.not_eq_true] at hcs
      simp [hcs]

/-- Claim C1: the candidate list returned by the scan is sorted non-increasing by
size, and for every size value the candidates of that size appear in exactly
the order the pre-sort walk discovered them (stability). -/
theorem scan_sorted_stable :
    ∀ (roots : List (Option (List WalkEntry))) (min_size : Nat) (now min_age_days : Int),
      List.Pairwise (fun a b => b.size ≤ a.size)
          (scan_move_candidates roots min_size now min_age_days) ∧
      ∀ s : Nat,
        (scan_move_candidates roots min_size now min_age_days).filter (fun c => c.size == s)
          = (scan_collect roots min_size (now - min_age_days * 86400)).filter
              (fun c => c.size == s) := by
  intro roots min_size now mad
  unfold scan_move_candidates sortDesc
  obtain ⟨hs, hf⟩ :=
    sortDesc_go_sorted_stable (scan_collect roots min_size (now - mad * 86400)) [] (by simp)
  exact ⟨hs, fun s => by simpa using hf s⟩

lemma prefixOf_skip_sep (q : List Char) (hq : '/' ∉ q) :
    ∀ x n : List Char, q.isPrefixOf (x ++ '/' :: n) = q.isPrefixOf x := by
  induction q with
  | nil => intro x n; simp [List.isPrefixOf]
  | cons d q ih =>
    intro x n
    have hd : d ≠ '/' := fun hdd => hq (hdd ▸ List.mem_cons_self d q)
    have hq1 : '/' ∉ q := fun hm => hq (List.mem_cons_of_mem d hm)
    cases x with
    | nil =>
      simp only [List.nil_append, List.isPrefixOf]
      simp [beq_eq_false_iff_ne.mpr hd]
    | cons e x =>
      simp only [List.cons_append, List.isPrefixOf, List.append_eq]
      rw [ih hq1 x n]

lemma containsSub_sepPat_nil (q : List Char) :
    ∀ n : List Char, '/' ∉ n → containsSub ('/' :: q) n = false := by
  intro n
  induction n with
  | nil => intro _; rfl
  | cons b bs ih =>
    intro hb
    have hb1 : ('/' : Char) ≠ b := fun hbb => hb (List.mem_cons.mpr (Or.inl hbb))
    have hbs : '/' ∉ bs := fun hm => hb (List.mem_cons_of_mem b hm)
    simp only [containsSub, List.isPrefixOf]
    rw [ih hbs]
    simp [beq_eq_false_iff_ne.mpr hb1]

lemma containsSub_append_sep (q : List Char) (hq : '/' ∉ q) :
    ∀ (p n : List Char), '/' ∉ n →
      containsSub ('/' :: q) (p ++ '/' :: n) = (containsSub ('/' :: q) p || q.isPrefixOf n) := by
  intro p
  induction p with
  | nil =>
    intro n hn
    simp only [List.nil_append, containsSub, List.isPrefixOf]
    rw [containsSub_sepPat_nil q n hn]
    simp
  | cons c p ihp =>
    intro n hn
    simp only [List.cons_append, containsSub, List.isPrefixOf, List.append_eq]
    rw [ihp n hn, prefixOf_skip_sep q hq p n]
    rw [Bool.or_assoc]

lemma prefixOf_append_keep (pat : List Char) :
    ∀ x ext : List Char, pat.isPrefixOf x = true → pat.isPrefixOf (x ++ ext) = true := by
  induction pat with
  | nil => intro x ext _; simp [List.isPrefixOf]
  | cons a pa ih =>
    intro x ext h
    cases x with
    | nil => cases h
    | cons b xs =>
      simp only [List.cons_append, List.isPrefixOf, Bool.and_eq_true] at h ⊢
      exact ⟨h.1, ih xs ext h.2⟩

lemma containsSub_append_keep (pat : List Char) :
    ∀ hay ext : List Char, containsSub pat hay = true → containsSub pat (hay ++ ext) = true := by
  intro hay
  induction hay with
  | nil =>
    intro ext hc
    have hpat : pat = [] := by
      cases pat with
      | nil => rfl
      | cons a as => cases hc
    subst hpat
    cases ext with
    | nil => rfl
    | cons e es => simp [containsSub, List.isPrefixOf]
  | cons c cs ih =>
    intro ext hc
    simp only [containsSub, Bool.or_eq_true] at hc
    simp only [List.cons_append, containsSub, Bool.or_eq_true]
    rcases hc with h1 | h1
    · exact Or.inl (prefixOf_append_keep pat (c :: cs) ext h1)
    · exact Or.inr (ih ext h1)

/-- Claim C3 counterexample: the directory "/u/.github" is excluded by the code's
substring test although neither ".Trash" nor ".git" occurs as an exact
directory-name segment of its path, and a file in it that the per-file filter
would accept is dropped from the scan. -/
theorem exclusion_not_exact_segment :
    excludedDir ("/u/.github".toList) = true ∧
    specSegExcluded ["u".toList, ".github".toList] = false ∧
    scanWalk 1 0 [⟨"/u/.github".toList, [⟨"f".toList, some ⟨5, -1⟩⟩]⟩] = [] ∧
    processFile 1 0 ("/u/.github".toList) ⟨"f".toList, some ⟨5, -1⟩⟩
        = some ⟨"/u/.github/f".toList, 5, -1⟩ :=
  ⟨by decide, by decide, by decide, by decide⟩

/-- Claim C3 (amended): the code excludes a dirpath exactly when "/.Trash" or "/.git"
occurs in it as a substring, i.e. when the root is already excluded or some
directory-name segment merely STARTS with ".Trash" or ".git" (so ".github" or
".Trashes" are excluded too, not only exact matches); and exclusion of a
directory extends to all paths below it. -/
theorem excludedDir_amended :
    (∀ (root : List Char) (segs : List (List Char)),
        (∀ s ∈ segs, '/' ∉ s) →
        excludedDir (joinSegs root segs) = (excludedDir root || segs.any namePrefixHit)) ∧
    (∀ dp ext : List Char, excludedDir dp = true → excludedDir (dp ++ ext) = true) := by
  constructor
  · intro root segs
    induction segs generalizing root with
    | nil => intro _; simp [joinSegs]
    | cons s ss ih =>
      intro h
      have hs : '/' ∉ s := h s (List.mem_cons_self s ss)
      have hss : ∀ x ∈ ss, '/' ∉ x := fun x hx => h x (List.mem_cons_of_mem s hx)
      have hstep : joinSegs root (s :: ss) = joinSegs (root ++ '/' :: s) ss := rfl
      rw [hstep, ih (root ++ '/' :: s) hss]
      have ht : containsSub trashPat (root ++ '/' :: s)
          = (containsSub trashPat root || (".Trash".toList).isPrefixOf s) := by
        rw [show trashPat = '/' :: ".Trash".toList from rfl]
        exact containsSub_append_sep (".Trash".toList) (by decide) root s hs
      have hg : containsSub gitPat (root ++ '/' :: s)
          = (containsSub gitPat root || (".git".toList).isPrefixOf s) := by
        rw [show gitPat = '/' :: ".git".toList from rfl]
        exact containsSub_append_sep (".git".toList) (by decide) root s hs
      simp only [excludedDir, List.any_cons, namePrefixHit, ht, hg]
      cases containsSub trashPat root <;> cases containsSub gitPat root <;>
        cases (".Trash".toList).isPrefixOf s <;> cases (".git".toList).isPrefixOf s <;> simp
  · intro dp ext h
    unfold excludedDir at h ⊢
    rw [Bool.or_eq_true] at h ⊢
    rcases h with h1 | h1
    · exact Or.inl (containsSub_append_keep trashPat dp ext h1)
    · exact Or.inr (containsSub_append_keep gitPat dp ext h1)

/-- Claim C3 witness: applying the amended characterisation to the ".github" path. -/
theorem excludedDir_amended_witness :
    excludedDir (joinSegs ("/u".toList) [".github".toList])
      = (excludedDir ("/u".toList) || [".github".toList].any namePrefixHit) :=
  excludedDir_amended.1 ("/u".toList) [".github".toList] (by decide)

lemma fmt1_shape (q : ℚ) :
    ∃ a : ℤ, ∃ d : Nat, d < 10 ∧ fmt1 q = toString a ++ "." ++ toString d :=
  ⟨roundTenths q / 10, (roundTenths q).natAbs % 10, Nat.mod_lt _ (by norm_num), rfl⟩

lemma str_space_merge (z u w : String) (h : " " ++ u = w) : z ++ w = z ++ " " ++ u := by
  rw [← h]
  exact (String.append_assoc z " " u).symm

lemma row_ne (xs ys : List Char) (c : Char) (hc : c ≠ ' ')
    (h : xs ++ [' ', c, 'B'] = ys ++ [' ', 'B']) : False := by
  have h1 := congrArg List.reverse h
  simp only [List.reverse_append] at h1
  have e1 : ([' ', c, 'B'] : List Char).reverse = ['B', c, ' '] := by simp
  have e2 : ([' ', 'B'] : List Char).reverse = ['B', ' '] := by simp
  rw [e1, e2] at h1
  simp only [List.cons_append, List.nil_append, List.cons.injEq, eq_self_iff_true,
    true_and] at h1
  exact hc h1.1

lemma unit_str_ne_B (x y u : String) (c : Char) (hc : c ≠ ' ') (hu : u.data = [c, 'B']) :
    x ++ " " ++ u ≠ y ++ " B" := by
  intro heq
  have hd := congrArg String.data heq
  simp only [String.data_append, hu, show (" " : String).data = [' '] from rfl,
    show (" B" : String).data = [' ', 'B'] from rfl, List.append_assoc,
    List.singleton_append, List.cons_append] at hd
  exact row_ne x.data y.data c hc hd

lemma eb_str_ne_B (x y : String) : x ++ " EB" ≠ y ++ " B" := by
  intro heq
  have hd := congrArg String.data heq
  simp only [String.data_append, show (" EB" : String).data = [' ', 'E', 'B'] from rfl,
    show (" B" : String).data = [' ', 'B'] from rfl] at hd
  exact row_ne x.data y.data 'E' (by decide) hd

lemma go_lt (u : String) (us : List String) (size : ℚ) (h : size < 1024) :
    format_size_go (u :: us) size
      = if u = "B" then toString ⌊size⌋ ++ " " ++ u else fmt1 size ++ " " ++ u := by
  simp only [format_size_go]
  rw [if_pos h]

lemma go_ge (u : String) (us : List String) (size : ℚ) (h : ¬ size < 1024) :
    format_size_go (u :: us) size = format_size_go us (size / 1024) := by
  simp only [format_size_go]
  rw [if_neg h]

lemma cast_lt_1024pow (n k : Nat) : ((n : ℚ) / 1024 ^ k < 1024) ↔ n < 1024 ^ (k + 1) := by
  rw [div_lt_iff (by positivity : (0 : ℚ) < 1024 ^ k)]
  rw [show (1024 : ℚ) * 1024 ^ k = ((1024 ^ (k + 1) : Nat) : ℚ) by push_cast; ring]
  exact Nat.cast_lt

lemma go_peel : ∀ k : Nat, k ≤ 5 → ∀ n : Nat, 1024 ^ k ≤ n →
    format_size n = format_size_go (sizeUnits.drop k) ((n : ℚ) / 1024 ^ k) := by
  intro k
  induction k with
  | zero => intro _ n _; simp [format_size]
  | succ k ih =>
    intro hk5 n hn
    have hnk : 1024 ^ k ≤ n :=
      le_trans (Nat.pow_le_pow_right (by norm_num) (Nat.le_succ k)) hn
    rw [ih (Nat.le_of_succ_le hk5) n hnk]
    have hklen : k < sizeUnits.length := by
      simp only [sizeUnits, List.length_cons, List.length_nil]
      omega
    rw [List.drop_eq_getElem_cons hklen]
    rw [go_ge _ _ _ (by rw [cast_lt_1024pow]; exact Nat.not_lt.mpr hn)]
    rw [div_div, ← pow_succ]

lemma format_size_small (n : Nat) (h : n < 1024) : format_size n = toString n ++ " B" := by
  have hq : (n : ℚ) < 1024 := by exact_mod_cast h
  rw [show format_size n = format_size_go ("B" :: ["KB", "MB", "GB", "TB", "PB"]) ((n : ℚ))
    from rfl]
  rw [go_lt _ _ _ hq, if_pos rfl]
  rw [Int.floor_natCast]
  rw [show toString ((n : ℤ)) = toString n from rfl]
  exact (str_space_merge _ "B" " B" rfl).symm

lemma format_size_regime (k : Nat) (h1k : 1 ≤ k) (hk5 : k ≤ 5) (n : Nat)
    (hlo : 1024 ^ k ≤ n) (hhi : n < 1024 ^ (k + 1)) :
    format_size n = fmt1 ((n : ℚ) / 1024 ^ k) ++ " " ++ sizeUnits.getD k "" := by
  rw [go_peel k hk5 n hlo]
  have hklen : k < sizeUnits.length := by
    simp only [sizeUnits, List.length_cons, List.length_nil]
    omega
  rw [List.drop_eq_getElem_cons hklen]
  rw [go_lt _ _ _ ((cast_lt_1024pow n k).mpr hhi)]
  have hgetd : sizeUnits[k] = sizeUnits.getD k "" := (List.getD_eq_getElem sizeUnits "" hklen).symm
  have hne : ¬ sizeUnits[k] = "B" := by
    rw [hgetd]
    interval_cases k <;> decide
  rw [if_neg hne]
  rw [List.getD_eq_getElem sizeUnits "" hklen]

lemma format_size_eb (n : Nat) (h6 : 1024 ^ 6 ≤ n) :
    format_size n = fmt1 ((n : ℚ) / 1024 ^ 6) ++ " EB" := by
  have h5 : 1024 ^ 5 ≤ n := le_trans (by norm_num) h6
  rw [go_peel 5 (by norm_num) n h5]
  rw [show sizeUnits.drop 5 = ["PB"] from rfl]
  rw [go_ge _ _ _ (by rw [cast_lt_1024pow]; exact Nat.not_lt.mpr h6)]
  simp only [format_size_go]
  rw [div_div]
  norm_num

/-- Claim C8: format_size renders with unit B and no decimal digits exactly when
n < 1024 (and never writes a bare "... B" once n ≥ 1024); on [1024, 1024^2) it
renders one decimal digit with unit KB; on each band [1024^k, 1024^(k+1)) for
k = 1..5 it renders one decimal digit with the k-th unit of the ladder
B, KB, MB, GB, TB, PB; at and beyond 1024^6 it falls back to EB, still with
exactly one decimal digit. -/
theorem format_size_units :
    ∀ n : Nat,
      (n < 1024 → format_size n = toString n ++ " B") ∧
      (1024 ≤ n → ∀ b : Nat, format_size n ≠ toString b ++ " B") ∧
      (∀ k : Nat, 1 ≤ k → k ≤ 5 → 1024 ^ k ≤ n → n < 1024 ^ (k + 1) →
          oneDecimalWith (format_size n) (sizeUnits.getD k "")) ∧
      (1024 ≤ n → n < 1024 ^ 2 → oneDecimalWith (format_size n) "KB") ∧
      (1024 ^ 6 ≤ n → oneDecimalWith (format_size n) "EB") := by
  intro n
  refine ⟨format_size_small n, ?_, ?_, ?_, ?_⟩
  · intro h1024 b
    rcases Nat.lt_or_ge n (1024 ^ 2) with h2 | h2
    · rw [format_size_regime 1 (by norm_num) (by norm_num) n (by simpa using h1024) h2]
      exact unit_str_ne_B _ _ _ 'K' (by decide) rfl
    · rcases Nat.lt_or_ge n (1024 ^ 3) with h3 | h3
      · rw [format_size_regime 2 (by norm_num) (by norm_num) n h2 h3]
        exact unit_str_ne_B _ _ _ 'M' (by decide) rfl
      · rcases Nat.lt_or_ge n (1024 ^ 4) with h4 | h4
        · rw [format_size_regime 3 (by norm_num) (by norm_num) n h3 h4]
          exact unit_str_ne_B _ _ _ 'G' (by decide) rfl
        · rcases Nat.lt_or_ge n (1024 ^ 5) with h5 | h5
          · rw [format_size_regime 4 (by norm_num) (by norm_num) n h4 h5]
            exact unit_str_ne_B _ _ _ 'T' (by decide) rfl
          · rcases Nat.lt_or_ge n (1024 ^ 6) with h6 | h6
            · rw [format_size_regime 5 (by norm_num) (by norm_num) n h5 h6]
              exact unit_str_ne_B _ _ _ 'P' (by decide) rfl
            · rw [format_size_eb n h6]
              exact eb_str_ne_B _ _
  · intro k h1k hk5 hlo hhi
    rw [format_size_regime k h1k hk5 n hlo hhi]
    obtain ⟨a, d, hd, hf⟩ := fmt1_shape ((n : ℚ) / 1024 ^ k)
    exact ⟨a, d, hd, by rw [hf]⟩
  · intro ha hb
    rw [format_size_regime 1 (by norm_num) (by norm_num) n (by simpa using ha) hb]
    obtain ⟨a, d, hd, hf⟩ := fmt1_shape ((n : ℚ) / 1024 ^ 1)
    exact ⟨a, d, hd, by rw [hf, show sizeUnits.getD 1 "" = "KB" from rfl]⟩
  · intro h6
    rw [format_size_eb n h6]
    obtain ⟨a, d, hd, hf⟩ := fmt1_shape ((n : ℚ) / 1024 ^ 6)
    refine ⟨a, d, hd, ?_⟩
    rw [hf]
    exact str_space_merge _ "EB" " EB" rfl

/-- Claim C8 witness: 1536 bytes renders as one decimal digit with unit KB. -/
theorem format_size_units_witness : oneDecimalWith (format_size 1536) "KB" :=
  (format_size_units 1536).2.2.2.1 (by decide) (by decide)
